import Mathlib

/-!
Verification of the SHA-256 implementation in `src/lib.rs` (crate `sha256`).

The Rust code is shallowly embedded over `Nat`: `u32` values are naturals
taken modulo `2 ^ 32` at every wrapping operation, byte sequences are
`List Nat`, and the fallible `Read::read(...).unwrap()` step in block
segmentation is modelled through `Option`.
-/

namespace Sha256

/-- `u32::wrapping_add`. -/
def wadd (x y : Nat) : Nat := (x + y) % 2 ^ 32

/-- `u32::rotate_right`: circular right rotation of a 32-bit word.
For `x < 2 ^ 32` and `0 < n < 32` this is the standard rotation. -/
def rotr (x n : Nat) : Nat := ((x >>> n) ||| (x <<< (32 - n))) % 2 ^ 32

/-- `fn sig0(x: u32)`: `x.rotate_right(7) ^ x.rotate_right(18) ^ x >> 3`. -/
def sig0 (x : Nat) : Nat := rotr x 7 ^^^ rotr x 18 ^^^ (x >>> 3)

/-- `fn sig1(x: u32)`: `x.rotate_right(17) ^ x.rotate_right(19) ^ x >> 10`. -/
def sig1 (x : Nat) : Nat := rotr x 17 ^^^ rotr x 19 ^^^ (x >>> 10)

/-- `fn usig0(x: u32)`: `x.rotate_right(2) ^ x.rotate_right(13) ^ x.rotate_right(22)`. -/
def usig0 (x : Nat) : Nat := rotr x 2 ^^^ rotr x 13 ^^^ rotr x 22

/-- `fn usig1(x: u32)`: `x.rotate_right(6) ^ x.rotate_right(11) ^ x.rotate_right(25)`. -/
def usig1 (x : Nat) : Nat := rotr x 6 ^^^ rotr x 11 ^^^ rotr x 25

/-- `fn ch(x, y, z)`: `(x & y) ^ (!x & z)`. `!x` on `u32` is complement
within 32 bits, embedded as XOR with `2 ^ 32 - 1`. -/
def ch (x y z : Nat) : Nat := (x &&& y) ^^^ ((x ^^^ (2 ^ 32 - 1)) &&& z)

/-- `fn maj(x, y, z)`: `(x & y) ^ (x & z) ^ (y & z)`. -/
def maj (x y z : Nat) : Nat := (x &&& y) ^^^ (x &&& z) ^^^ (y &&& z)

/-- `SQRT_CONST`: the initial hash state (first 32 bits of the fractional
parts of the square roots of the first 8 primes). -/
def SQRT_CONST : List Nat :=
  [0x6a09e667, 0xbb67ae85, 0x3c6ef372, 0xa54ff53a,
   0x510e527f, 0x9b05688c, 0x1f83d9ab, 0x5be0cd19]

/-- `CBRT_CONST`: the 64 round constants, written as the eight rows of
the source table. -/
def CBRT_CONST : List Nat :=
  [0x428a2f98, 0x71374491, 0xb5c0fbcf, 0xe9b5dba5,
   0x3956c25b, 0x59f111f1, 0x923f82a4, 0xab1c5ed5] ++
  [0xd807aa98, 0x12835b01, 0x243185be, 0x550c7dc3,
   0x72be5d74, 0x80deb1fe, 0x9bdc06a7, 0xc19bf174] ++
  [0xe49b69c1, 0xefbe4786, 0x0fc19dc6, 0x240ca1cc,
   0x2de92c6f, 0x4a7484aa, 0x5cb0a9dc, 0x76f988da] ++
  [0x983e5152, 0xa831c66d, 0xb00327c8, 0xbf597fc7,
   0xc6e00bf3, 0xd5a79147, 0x06ca6351, 0x14292967] ++
  [0x27b70a85, 0x2e1b2138, 0x4d2c6dfc, 0x53380d13,
   0x650a7354, 0x766a0abb, 0x81c2c92e, 0x92722c85] ++
  [0xa2bfe8a1, 0xa81a664b, 0xc24b8b70, 0xc76c51a3,
   0xd192e819, 0xd6990624, 0xf40e3585, 0x106aa070] ++
  [0x19a4c116, 0x1e376c08, 0x2748774c, 0x34b0bcb5,
   0x391c0cb3, 0x4ed8aa4a, 0x5b9cca4f, 0x682e6ff3] ++
  [0x748f82ee, 0x78a5636f, 0x84c87814, 0x8cc70208,
   0x90befffa, 0xa4506ceb, 0xbef9a3f7, 0xc67178f2]

/-- `fn apply_padding(bytes: &[u8]) -> Vec<u8>`: the input bytes, then the
`0x80` terminator, then `(55 - byte_length as isize).rem_euclid(64).abs()`
zero bytes, then the bit length pushed as bytes
`(bit_length >> i*8) as u8` for `i` in `(0..8).rev()`. -/
def apply_padding (bytes : List Nat) : List Nat :=
  let byte_length := bytes.length
  let bit_length := byte_length * 8
  let padding_length := ((55 - (byte_length : Int)) % 64).natAbs
  bytes ++ [0x80] ++ List.replicate padding_length 0x00 ++
    ((List.range 8).reverse.map fun i => (bit_length >>> (i * 8)) % 256)

/-- `slice::chunks(64)` driven by a structural fuel (the list length
always suffices): successive sublists of 64 bytes, the last one possibly
shorter, none empty. -/
def chunksAux : Nat → List Nat → List (List Nat)
  | 0, _ => []
  | _, [] => []
  | fuel + 1, a :: rest => (a :: rest).take 64 :: chunksAux fuel ((a :: rest).drop 64)

/-- `padded.chunks(64)`. -/
def chunks64 (l : List Nat) : List (List Nat) := chunksAux l.length l

/-- The 64-byte buffer produced by reading one chunk into `[0u8; 64]`:
the first `min(64, chunk.len())` bytes of the chunk, the rest still zero. -/
def blockFill (chunk : List Nat) : List Nat :=
  chunk.take 64 ++ List.replicate (64 - min 64 chunk.length) 0

/-- `chunk.read(&mut block)` where `block = [0u8; 64]`: the `Read`
implementation for `&[u8]` copies `min(64, chunk.len())` bytes into the
front of the zero-initialised buffer and always returns `Ok`, embedded as
`some`. -/
def readBlock (chunk : List Nat) : Option (List Nat) :=
  some (blockFill chunk)

/-- `fn create_blocks(padded: Vec<u8>) -> Vec<[u8; 64]>`: each 64-byte
chunk is read into a zeroed block; the `unwrap` of the `io::Result` is the
`Option` layer. -/
def create_blocks (padded : List Nat) : Option (List (List Nat)) :=
  (chunks64 padded).mapM readBlock

/-- `u32::from_be_bytes(block[i*4..(i+1)*4])`: big-endian 32-bit word at
word index `i` of a block. -/
def wordBE (block : List Nat) (i : Nat) : Nat :=
  block.getD (4 * i) 0 * 2 ^ 24 + block.getD (4 * i + 1) 0 * 2 ^ 16 +
    block.getD (4 * i + 2) 0 * 2 ^ 8 + block.getD (4 * i + 3) 0

/-- One iteration of the `for i in 16..64` loop of
`create_message_schedule`: with `i = acc.length`, append
`sig1(s[i-2]).wrapping_add(s[i-7]).wrapping_add(sig0(s[i-15])).wrapping_add(s[i-16])`. -/
def scheduleStep (acc : List Nat) : List Nat :=
  acc ++ [wadd (wadd (wadd (sig1 (acc.getD (acc.length - 2) 0))
    (acc.getD (acc.length - 7) 0)) (sig0 (acc.getD (acc.length - 15) 0)))
    (acc.getD (acc.length - 16) 0)]

/-- `fn create_message_schedule(block: &[u8; 64]) -> [u32; 64]`: words
0..15 are the big-endian words of the block, then 48 recurrence steps. -/
def create_message_schedule (block : List Nat) : List Nat :=
  scheduleStep^[48] ((List.range 16).map (wordBE block))

/-- `registers.rotate_right(1)` on the 8-register array: the last element
moves to the front. -/
def rotr1 (l : List Nat) : List Nat := l.getLastD 0 :: l.dropLast

/-- One iteration of the `for i in 0..64` loop of `do_compression`:
`temp1`/`temp2` from the current registers, rotate right by one, then
`registers[0] = temp1 + temp2` and `registers[4] += temp1`. -/
def compressionRound (r : List Nat) (k w : Nat) : List Nat :=
  let temp1 := wadd (wadd (wadd (wadd (usig1 (r.getD 4 0))
    (ch (r.getD 4 0) (r.getD 5 0) (r.getD 6 0))) (r.getD 7 0)) k) w
  let temp2 := wadd (usig0 (r.getD 0 0)) (maj (r.getD 0 0) (r.getD 1 0) (r.getD 2 0))
  let r1 := rotr1 r
  let r2 := r1.set 0 (wadd temp1 temp2)
  r2.set 4 (wadd (r2.getD 4 0) temp1)

/-- `fn do_compression(initial: [u32; 8], schedule: &[u32; 64]) -> [u32; 8]`:
64 rounds over the schedule and round constants, then the feed-forward
`registers[i] = initial[i].wrapping_add(registers[i])`. -/
def do_compression (initial : List Nat) (schedule : List Nat) : List Nat :=
  let r := (List.range 64).foldl
    (fun r i => compressionRound r (CBRT_CONST.getD i 0) (schedule.getD i 0)) initial
  (List.range 8).map fun i => wadd (initial.getD i 0) (r.getD i 0)

/-- The sixteen lowercase hexadecimal characters, decimal digits then
letters. -/
def hexChars : List Char :=
  ['0', '1', '2', '3', '4', '5', '6', '7', '8', '9'] ++
    ['a', 'b', 'c', 'd', 'e', 'f']

/-- Hex digit character for one value below 16, lowercase. -/
def hexDigit (n : Nat) : Char := hexChars.getD n '0'

/-- One byte rendered by the format `02x`: two lowercase hex digits
(every byte is below `0x100`, so the width is exactly two). -/
def byteToHex (b : Nat) : List Char := [hexDigit (b / 16), hexDigit (b % 16)]

/-- `compressed[i].to_be()` transmuted to `[u8; 4]`: the big-endian bytes
of a 32-bit word, composed arithmetically. -/
def u32BeBytes (w : Nat) : List Nat :=
  [(w >>> 24) % 256, (w >>> 16) % 256, (w >>> 8) % 256, w % 256]

/-- `fn get_digest(compressed: &[u32; 8]) -> String`: serialize the 8
words as 32 big-endian bytes, then write each byte with format `02x`. -/
def get_digest (compressed : List Nat) : String :=
  let bytes := ((List.range 8).map fun i => u32BeBytes (compressed.getD i 0)).flatten
  String.mk (bytes.map byteToHex).flatten

/-- The hash state after folding every block of the padded input into
`SQRT_CONST`, as in the `for block in blocks` loop of `sha256`. -/
def hash_state (input : List Nat) : List Nat :=
  ((create_blocks (apply_padding input)).getD []).foldl
    (fun h block => do_compression h (create_message_schedule block)) SQRT_CONST

/-- `pub fn sha256(input: &str) -> String`, over the UTF-8 bytes of the
input. -/
def sha256 (input : List Nat) : String := get_digest (hash_state input)

/-! Spec-side definitions, written from the claims' wording, to be
compared with the source embeddings above. -/

/-- Spec wording for the zero-fill count of the padder:
`(55 - L) mod 64`, computed over integers, always in `[0, 63]`. -/
def padZeros (L : Nat) : Nat := ((55 - (L : Int)) % 64).toNat

/-- Spec wording for the length suffix of the padder: a value written as
exactly 8 big-endian bytes. -/
def be64 (v : Nat) : List Nat :=
  [v / 2 ^ 56 % 256, v / 2 ^ 48 % 256, v / 2 ^ 40 % 256, v / 2 ^ 32 % 256,
   v / 2 ^ 24 % 256, v / 2 ^ 16 % 256, v / 2 ^ 8 % 256, v % 256]

/-- Spec wording for one compression round: `T1 = Σ1(e) + Ch(e,f,g) + h +
K[i] + W[i]` and `T2 = Σ0(a) + Maj(a,b,c)` under modular 32-bit addition,
then new `h = g, g = f, f = e, e = d + T1, d = c, c = b, b = a,
a = T1 + T2`. -/
def specRound (r : List Nat) (k w : Nat) : List Nat :=
  let a := r.getD 0 0
  let b := r.getD 1 0
  let c := r.getD 2 0
  let d := r.getD 3 0
  let e := r.getD 4 0
  let f := r.getD 5 0
  let g := r.getD 6 0
  let h := r.getD 7 0
  let T1 := (usig1 e + ch e f g + h + k + w) % 2 ^ 32
  let T2 := (usig0 a + maj a b c) % 2 ^ 32
  [(T1 + T2) % 2 ^ 32, a, b, c, (d + T1) % 2 ^ 32, e, f, g]

/-- Spec wording for the compression function: 64 rounds of `specRound`
over the schedule and round constants, then the Davies-Meyer feed-forward
`state[j] = (state[j] + registers[j]) mod 2 ^ 32`. -/
def specCompression (initial schedule : List Nat) : List Nat :=
  let r := (List.range 64).foldl
    (fun r i => specRound r (CBRT_CONST.getD i 0) (schedule.getD i 0)) initial
  (List.range 8).map fun j => (initial.getD j 0 + r.getD j 0) % 2 ^ 32

/-- The value the block segmenter returns when it succeeds: every chunk
of 64 bytes read into a zeroed 64-byte block. -/
def blocksOf (l : List Nat) : List (List Nat) := (chunks64 l).map blockFill

end Sha256

namespace Sha256

set_option maxRecDepth 1000000

/-- Loop invariant of `List.mapM` specialised to `readBlock`. -/
theorem mapM_loop_readBlock (cs : List (List Nat)) (acc : List (List Nat)) :
    List.mapM.loop readBlock cs acc = some (acc.reverse ++ cs.map blockFill) := by
  induction cs generalizing acc with
  | nil => simp [List.mapM.loop]
  | cons c cs ih => simp [List.mapM.loop, readBlock, ih]

/-- Reading a list of chunks never fails and fills each into a block. -/
theorem mapM_readBlock (cs : List (List Nat)) :
    cs.mapM readBlock = some (cs.map blockFill) := by
  simp [List.mapM, mapM_loop_readBlock]

/-- The block segmenter always succeeds, returning `blocksOf`. -/
theorem create_blocks_eq (l : List Nat) : create_blocks l = some (blocksOf l) :=
  mapM_readBlock (chunks64 l)

/-- Claim C1: for the three-byte input `abc` (UTF-8 bytes 0x61 0x62 0x63),
`sha256` returns exactly the 64-character string
`ba7816bf8f01cfea414140de5dae2223b00361a396177a9cb410ff61f20015ad`. -/
theorem claim_C1 :
    sha256 [0x61, 0x62, 0x63] =
      "ba7816bf8f01cfea414140de5dae2223b00361a396177a9cb410ff61f20015ad" := by
  decide

/-- Claim C9, counterexample: on the empty input `sha256` does not return
the 63-character string quoted by the spec. -/
theorem claim_C9_counterexample :
    sha256 [] ≠ "e3b0c44298fc1c149afbf4c8996fb92427ae41e4649b934ca495991b7852b85" := by
  decide

/-- Claim C9, amended: for the empty input, `sha256` returns exactly the
canonical 64-character digest
`e3b0c44298fc1c149afbf4c8996fb92427ae41e4649b934ca495991b7852b855`. -/
theorem claim_C9 :
    sha256 [] =
      "e3b0c44298fc1c149afbf4c8996fb92427ae41e4649b934ca495991b7852b855" := by
  decide

/-- Claim C6, counterexample: a one-byte input has length not a multiple
of 64, yet the block segmenter succeeds instead of failing. -/
theorem claim_C6_counterexample :
    ¬ (64 ∣ ([0] : List Nat).length) ∧ create_blocks [0] ≠ none := by
  decide

/-- Claim C6, amended: the block segmenter never fails: for every input
byte sequence, including lengths that are not a multiple of 64, it
returns a list of blocks rather than an error. -/
theorem claim_C6 (l : List Nat) : create_blocks l = some (blocksOf l) :=
  create_blocks_eq l

/-- Claim C4: for every input of length `L`, the padder returns exactly
the input, one `0x80` byte, `(55 - L) mod 64` zero bytes (a count in
`[0, 63]`), and the value `L * 8` written as exactly 8 big-endian
bytes. -/
theorem claim_C4 (bytes : List Nat) :
    apply_padding bytes =
      bytes ++ [0x80] ++ List.replicate (padZeros bytes.length) 0x00 ++
        be64 (8 * bytes.length) ∧
    padZeros bytes.length ≤ 63 ∧ (be64 (8 * bytes.length)).length = 8 := by
  have hbytes : ∀ v : Nat,
      (List.range 8).reverse.map (fun i => (v >>> (i * 8)) % 256) = be64 v := by
    intro v
    rw [show (List.range 8).reverse = [7, 6, 5, 4, 3, 2, 1, 0] from by decide]
    simp only [List.map_cons, List.map_nil, Nat.shiftRight_eq_div_pow, be64]
    norm_num
  refine ⟨?_, ?_, by simp [be64]⟩
  · simp only [apply_padding, padZeros]
    rw [hbytes (bytes.length * 8), Nat.mul_comm bytes.length 8,
      show ((55 - (bytes.length : Int)) % 64).natAbs =
        ((55 - (bytes.length : Int)) % 64).toNat from by omega]
  · unfold padZeros
    omega

/-- Claim C5: the padder's output length is `L + 1 + zero-fill + 8`, is
the smallest multiple of 64 that is at least `L + 9`, is always a
positive multiple of 64, and is exactly 64 for the empty input. -/
theorem claim_C5 (bytes : List Nat) :
    (apply_padding bytes).length = bytes.length + 1 + padZeros bytes.length + 8 ∧
    64 ∣ (apply_padding bytes).length ∧
    bytes.length + 9 ≤ (apply_padding bytes).length ∧
    (∀ m : Nat, 64 ∣ m → bytes.length + 9 ≤ m → (apply_padding bytes).length ≤ m) ∧
    0 < (apply_padding bytes).length ∧
    (bytes.length = 0 → (apply_padding bytes).length = 64) := by
  have hlen : (apply_padding bytes).length =
      bytes.length + 1 + ((55 - (bytes.length : Int)) % 64).natAbs + 8 := by
    simp [apply_padding]
    omega
  unfold padZeros
  refine ⟨by omega, by omega, by omega, ?_, by omega, by omega⟩
  intro m hm h9
  omega

/-- `chunksAux` on an empty list is empty for any fuel. -/
theorem chunksAux_nil (fuel : Nat) : chunksAux fuel [] = [] := by
  cases fuel <;> rfl

/-- The chunks of a list concatenate back to the list. -/
theorem chunksAux_flatten (fuel : Nat) :
    ∀ l : List Nat, l.length ≤ fuel → (chunksAux fuel l).flatten = l := by
  induction fuel with
  | zero =>
    intro l h
    rw [List.eq_nil_of_length_eq_zero (Nat.le_zero.mp h)]
    rfl
  | succ f ih =>
    intro l h
    match l with
    | [] => rfl
    | a :: rest =>
      simp only [List.length_cons] at h
      show ((a :: rest).take 64 :: chunksAux f ((a :: rest).drop 64)).flatten = a :: rest
      rw [List.flatten_cons,
        ih _ (by simp only [List.length_drop, List.length_cons]; omega)]
      exact List.take_append_drop 64 (a :: rest)

/-- There are `ceil(length / 64)` chunks. -/
theorem chunksAux_length (fuel : Nat) :
    ∀ l : List Nat, l.length ≤ fuel →
      (chunksAux fuel l).length = (l.length + 63) / 64 := by
  induction fuel with
  | zero =>
    intro l h
    rw [List.eq_nil_of_length_eq_zero (Nat.le_zero.mp h)]
    rfl
  | succ f ih =>
    intro l h
    match l with
    | [] => rfl
    | a :: rest =>
      simp only [List.length_cons] at h
      show ((a :: rest).take 64 :: chunksAux f ((a :: rest).drop 64)).length =
        ((a :: rest).length + 63) / 64
      rw [List.length_cons,
        ih _ (by simp only [List.length_drop, List.length_cons]; omega)]
      simp only [List.length_drop, List.length_cons]
      omega

/-- When the total length is a multiple of 64, every chunk is full. -/
theorem chunksAux_mem_dvd (fuel : Nat) :
    ∀ l : List Nat, l.length ≤ fuel → 64 ∣ l.length →
      ∀ c ∈ chunksAux fuel l, c.length = 64 := by
  induction fuel with
  | zero =>
    intro l h _ c hc
    rw [List.eq_nil_of_length_eq_zero (Nat.le_zero.mp h)] at hc
    simp [chunksAux] at hc
  | succ f ih =>
    intro l h hdvd c hc
    match l with
    | [] => simp [chunksAux_nil] at hc
    | a :: rest =>
      simp only [List.length_cons] at h
      have hlen : 64 ≤ (a :: rest).length := by
        rcases hdvd with ⟨k, hk⟩
        simp only [List.length_cons] at hk ⊢
        omega
      simp only [List.length_cons] at hlen
      have hc' : c = (a :: rest).take 64 ∨ c ∈ chunksAux f ((a :: rest).drop 64) :=
        List.mem_cons.mp hc
      rcases hc' with hc' | hc'
      · rw [hc', List.length_take, List.length_cons]
        omega
      · refine ih _ (by simp only [List.length_drop, List.length_cons]; omega) ?_ c hc'
        rcases hdvd with ⟨k, hk⟩
        simp only [List.length_cons] at hk
        simp only [List.length_drop, List.length_cons]
        omega

/-- `getLast?` of a cons with a nonempty tail skips the head. -/
theorem getLast?_cons_of_ne_nil {α : Type} (x : α) {xs : List α} (h : xs ≠ []) :
    (x :: xs).getLast? = xs.getLast? := by
  cases xs with
  | nil => exact absurd rfl h
  | cons y ys => exact List.getLast?_cons_cons

/-- When the length is not a multiple of 64, the last chunk is the
trailing partial chunk of the list. -/
theorem chunksAux_getLast (fuel : Nat) :
    ∀ l : List Nat, l.length ≤ fuel → l.length % 64 ≠ 0 →
      (chunksAux fuel l).getLast? = some (l.drop (64 * (l.length / 64))) := by
  induction fuel with
  | zero =>
    intro l h hmod
    rw [List.eq_nil_of_length_eq_zero (Nat.le_zero.mp h)] at hmod
    simp at hmod
  | succ f ih =>
    intro l h hmod
    match l with
    | [] => simp at hmod
    | a :: rest =>
      by_cases hle : (a :: rest).length ≤ 64
      · have hlt : (a :: rest).length < 64 := by omega
        show ((a :: rest).take 64 :: chunksAux f ((a :: rest).drop 64)).getLast? = _
        rw [List.drop_eq_nil_of_le (by omega), chunksAux_nil]
        rw [Nat.div_eq_of_lt hlt, Nat.mul_zero, List.drop_zero]
        simp [List.take_of_length_le (by omega : (a :: rest).length ≤ 64)]
      · have hgt : 64 < (a :: rest).length := by omega
        show ((a :: rest).take 64 :: chunksAux f ((a :: rest).drop 64)).getLast? = _
        have hdl : ((a :: rest).drop 64).length = (a :: rest).length - 64 :=
          List.length_drop 64 (a :: rest)
        have hfl : ((a :: rest).drop 64).length ≤ f := by
          rw [hdl]
          omega
        have hml : ((a :: rest).drop 64).length % 64 ≠ 0 := by
          rw [hdl]
          omega
        have hne : chunksAux f ((a :: rest).drop 64) ≠ [] := by
          intro hnil
          have hcl := chunksAux_length f ((a :: rest).drop 64) hfl
          rw [hnil, hdl] at hcl
          simp only [List.length_nil] at hcl
          omega
        rw [getLast?_cons_of_ne_nil _ hne, ih _ hfl hml, List.drop_drop, hdl]
        have heq : 64 + 64 * (((a :: rest).length - 64) / 64) =
            64 * ((a :: rest).length / 64) := by omega
        rw [heq]

/-- Every block produced by `blockFill` has exactly 64 bytes. -/
theorem blockFill_length (c : List Nat) : (blockFill c).length = 64 := by
  simp only [blockFill, List.length_append, List.length_take, List.length_replicate]
  omega

/-- A full 64-byte chunk is unchanged by `blockFill`. -/
theorem blockFill_of_length (c : List Nat) (h : c.length = 64) : blockFill c = c := by
  simp [blockFill, List.take_of_length_le (by omega : c.length ≤ 64), h]

/-- Claim C7: for every byte sequence whose length is an exact multiple
of 64, the block segmenter returns `length / 64` blocks of 64 bytes each,
in order, whose concatenation is exactly the input. -/
theorem claim_C7 (l : List Nat) (n : Nat) (h : l.length = 64 * n) :
    create_blocks l = some (blocksOf l) ∧ (blocksOf l).length = n ∧
    (∀ b ∈ blocksOf l, b.length = 64) ∧ (blocksOf l).flatten = l := by
  refine ⟨create_blocks_eq l, ?_, fun b hb => ?_, ?_⟩
  · rw [blocksOf, List.length_map, chunks64, chunksAux_length l.length l le_rfl]
    omega
  · rcases List.mem_map.mp hb with ⟨c, _, hc⟩
    rw [← hc]
    exact blockFill_length c
  · have hmem : ∀ c ∈ chunks64 l, blockFill c = id c := fun c hc =>
      blockFill_of_length c (chunksAux_mem_dvd l.length l le_rfl ⟨n, h⟩ c hc)
    rw [blocksOf, List.map_congr_left hmem, List.map_id, chunks64,
      chunksAux_flatten l.length l le_rfl]

/-- Claim C7 witness: a 64-byte input yields one block equal to itself. -/
theorem claim_C7_witness :
    create_blocks (List.replicate 64 0) = some (blocksOf (List.replicate 64 0)) ∧
    (blocksOf (List.replicate 64 0)).length = 1 ∧
    (blocksOf (List.replicate 64 0)).flatten = List.replicate 64 0 :=
  ⟨(claim_C7 (List.replicate 64 0) 1 (by decide)).1,
   (claim_C7 (List.replicate 64 0) 1 (by decide)).2.1,
   (claim_C7 (List.replicate 64 0) 1 (by decide)).2.2.2⟩

/-- Claim C10: on input whose length is not a multiple of 64 the block
segmenter does not fail: it returns `ceil(length / 64)` blocks of 64
bytes, the final one being the trailing partial chunk zero-extended to 64
bytes. -/
theorem claim_C10 (l : List Nat) (h : l.length % 64 ≠ 0) :
    create_blocks l = some (blocksOf l) ∧
    (blocksOf l).length = (l.length + 63) / 64 ∧
    (∀ b ∈ blocksOf l, b.length = 64) ∧
    (blocksOf l).getLast? =
      some (l.drop (64 * (l.length / 64)) ++ List.replicate (64 - l.length % 64) 0) := by
  refine ⟨create_blocks_eq l, ?_, fun b hb => ?_, ?_⟩
  · rw [blocksOf, List.length_map, chunks64, chunksAux_length l.length l le_rfl]
  · rcases List.mem_map.mp hb with ⟨c, _, hc⟩
    rw [← hc]
    exact blockFill_length c
  · rw [blocksOf, List.getLast?_map, chunks64, chunksAux_getLast l.length l le_rfl h]
    have hlen : (l.drop (64 * (l.length / 64))).length = l.length % 64 := by
      rw [List.length_drop]
      omega
    rw [Option.map_some']
    congr 1
    rw [blockFill, List.take_of_length_le (by omega), hlen]
    congr 2
    omega

/-- Claim C10 witness: a single byte yields one block, the byte followed
by 63 zeros. -/
theorem claim_C10_witness :
    ([7] : List Nat).length % 64 ≠ 0 ∧
    create_blocks [7] = some (blocksOf [7]) ∧
    (blocksOf [7]).length = 1 ∧
    (blocksOf [7]).getLast? = some ([7] ++ List.replicate 63 0) := by
  refine ⟨by decide, (claim_C10 [7] (by decide)).1, ?_, ?_⟩
  · exact (claim_C10 [7] (by decide)).2.1
  · exact (claim_C10 [7] (by decide)).2.2.2

/-- The spec-side round keeps exactly 8 registers. -/
theorem specRound_length (r : List Nat) (k w : Nat) : (specRound r k w).length = 8 := by
  simp [specRound]

/-- The source round (array rotation plus two indexed assignments) agrees
with the spec-side round on every 8-register state. -/
theorem compressionRound_eq (r : List Nat) (k w : Nat) (h : r.length = 8) :
    compressionRound r k w = specRound r k w := by
  rcases r with _ | ⟨r0, _ | ⟨r1, _ | ⟨r2, _ | ⟨r3, _ | ⟨r4, _ | ⟨r5, _ | ⟨r6, _ |
    ⟨r7, _ | ⟨r8, t⟩⟩⟩⟩⟩⟩⟩⟩⟩ <;>
    simp only [List.length_cons, List.length_nil] at h <;> try omega
  simp [compressionRound, specRound, rotr1, wadd]

/-- The 64-round loop agrees with the spec-side loop from any 8-register
start. -/
theorem foldRounds_eq (schedule : List Nat) (idxs : List Nat) :
    ∀ r : List Nat, r.length = 8 →
      idxs.foldl (fun r i =>
        compressionRound r (CBRT_CONST.getD i 0) (schedule.getD i 0)) r =
      idxs.foldl (fun r i =>
        specRound r (CBRT_CONST.getD i 0) (schedule.getD i 0)) r := by
  induction idxs with
  | nil => intro r _; rfl
  | cons i idxs ih =>
    intro r hr
    simp only [List.foldl_cons]
    rw [compressionRound_eq _ _ _ hr]
    exact ih _ (specRound_length r _ _)

/-- Claim C2: for every initial 8-word state and every schedule, the
compression function performs the 64 spec rounds (T1 and T2 as in the
spec, registers rotated with e = d + T1 and a = T1 + T2) and finishes
with the Davies-Meyer feed-forward: it equals `specCompression`. -/
theorem claim_C2 (initial schedule : List Nat) (h : initial.length = 8) :
    do_compression initial schedule = specCompression initial schedule := by
  unfold do_compression specCompression
  rw [foldRounds_eq schedule (List.range 64) initial h]
  rfl

/-- Claim C2 witness: the equivalence at the initial SHA-256 state and
the all-zero schedule. -/
theorem claim_C2_witness :
    do_compression SQRT_CONST (List.replicate 64 0) =
      specCompression SQRT_CONST (List.replicate 64 0) :=
  claim_C2 SQRT_CONST (List.replicate 64 0) rfl

/-- One schedule step adds one word. -/
theorem scheduleStep_length (acc : List Nat) :
    (scheduleStep acc).length = acc.length + 1 := by
  simp [scheduleStep]

/-- One schedule step leaves the existing words unchanged. -/
theorem scheduleStep_getD_lt (acc : List Nat) (j : Nat) (h : j < acc.length) :
    (scheduleStep acc).getD j 0 = acc.getD j 0 :=
  List.getD_append _ _ _ _ h

/-- The word appended by one schedule step is the SHA-256 recurrence over
the last 16 words. -/
theorem scheduleStep_getD_self (acc : List Nat) :
    (scheduleStep acc).getD acc.length 0 =
      wadd (wadd (wadd (sig1 (acc.getD (acc.length - 2) 0))
        (acc.getD (acc.length - 7) 0)) (sig0 (acc.getD (acc.length - 15) 0)))
        (acc.getD (acc.length - 16) 0) := by
  rw [scheduleStep, List.getD_append_right _ _ _ _ le_rfl, Nat.sub_self]
  rfl

/-- Iterating the schedule step `k` times adds `k` words. -/
theorem schedIter_length (k : Nat) (acc : List Nat) :
    (scheduleStep^[k] acc).length = acc.length + k := by
  induction k with
  | zero => rfl
  | succ n ih =>
    rw [Function.iterate_succ_apply', scheduleStep_length, ih]
    omega

/-- Iterating the schedule step never changes the initial words. -/
theorem schedIter_getD_lt (k : Nat) (acc : List Nat) (j : Nat) (h : j < acc.length) :
    (scheduleStep^[k] acc).getD j 0 = acc.getD j 0 := by
  induction k with
  | zero => rfl
  | succ n ih =>
    rw [Function.iterate_succ_apply',
      scheduleStep_getD_lt _ _ (by rw [schedIter_length]; omega), ih]

/-- Every word appended by the iterated schedule step satisfies the
SHA-256 recurrence, read back in the final schedule. -/
theorem schedIter_getD_rec (k : Nat) (acc : List Nat) (ha : 1 ≤ acc.length) :
    ∀ j, j < k →
      (scheduleStep^[k] acc).getD (acc.length + j) 0 =
        wadd (wadd (wadd (sig1 ((scheduleStep^[k] acc).getD (acc.length + j - 2) 0))
          ((scheduleStep^[k] acc).getD (acc.length + j - 7) 0))
          (sig0 ((scheduleStep^[k] acc).getD (acc.length + j - 15) 0)))
          ((scheduleStep^[k] acc).getD (acc.length + j - 16) 0) := by
  induction k with
  | zero => intro j hj; exact absurd hj (Nat.not_lt_zero j)
  | succ n ih =>
    intro j hj
    rw [Function.iterate_succ_apply']
    have hslen : (scheduleStep^[n] acc).length = acc.length + n := schedIter_length n acc
    rcases Nat.lt_or_ge j n with hjn | hjn
    · rw [scheduleStep_getD_lt _ (acc.length + j) (by omega),
        scheduleStep_getD_lt _ (acc.length + j - 2) (by omega),
        scheduleStep_getD_lt _ (acc.length + j - 7) (by omega),
        scheduleStep_getD_lt _ (acc.length + j - 15) (by omega),
        scheduleStep_getD_lt _ (acc.length + j - 16) (by omega)]
      exact ih j hjn
    · have hj' : j = n := by omega
      subst hj'
      have heq : acc.length + j = (scheduleStep^[j] acc).length := by omega
      rw [heq, scheduleStep_getD_self,
        scheduleStep_getD_lt _ ((scheduleStep^[j] acc).length - 2) (by omega),
        scheduleStep_getD_lt _ ((scheduleStep^[j] acc).length - 7) (by omega),
        scheduleStep_getD_lt _ ((scheduleStep^[j] acc).length - 15) (by omega),
        scheduleStep_getD_lt _ ((scheduleStep^[j] acc).length - 16) (by omega)]

/-- Claim C3: the message schedule has 64 words; words 0..15 are the
block's big-endian 32-bit words, and each word 16..63 equals
`σ1(w[i-2]) + w[i-7] + σ0(w[i-15]) + w[i-16]` under modular 32-bit
addition. -/
theorem claim_C3 (block : List Nat) :
    (create_message_schedule block).length = 64 ∧
    (∀ i, i < 16 → (create_message_schedule block).getD i 0 = wordBE block i) ∧
    (∀ i, 16 ≤ i → i < 64 →
      (create_message_schedule block).getD i 0 =
        (sig1 ((create_message_schedule block).getD (i - 2) 0) +
         (create_message_schedule block).getD (i - 7) 0 +
         sig0 ((create_message_schedule block).getD (i - 15) 0) +
         (create_message_schedule block).getD (i - 16) 0) % 2 ^ 32) := by
  have hinitlen : ((List.range 16).map (wordBE block)).length = 16 := by simp
  refine ⟨?_, ?_, ?_⟩
  · rw [create_message_schedule, schedIter_length, hinitlen]
  · intro i hi
    rw [create_message_schedule, schedIter_getD_lt _ _ _ (by omega),
      List.getD_eq_getElem?_getD, List.getElem?_map, List.getElem?_range hi]
    rfl
  · intro i h16 h64
    have hrec := schedIter_getD_rec 48 ((List.range 16).map (wordBE block))
      (by omega) (i - 16) (by omega)
    rw [hinitlen] at hrec
    have hidx : 16 + (i - 16) = i := by omega
    rw [hidx] at hrec
    rw [create_message_schedule, hrec]
    simp only [wadd, Nat.mod_add_mod]

/-- Claim C3 witness: the characterisation instantiated at the block of
bytes 0..63, at schedule indices 0 and 16. -/
theorem claim_C3_witness :
    (create_message_schedule (List.range 64)).length = 64 ∧
    (create_message_schedule (List.range 64)).getD 0 0 = wordBE (List.range 64) 0 ∧
    (create_message_schedule (List.range 64)).getD 16 0 =
      (sig1 ((create_message_schedule (List.range 64)).getD 14 0) +
       (create_message_schedule (List.range 64)).getD 9 0 +
       sig0 ((create_message_schedule (List.range 64)).getD 1 0) +
       (create_message_schedule (List.range 64)).getD 0 0) % 2 ^ 32 :=
  ⟨(claim_C3 (List.range 64)).1, (claim_C3 (List.range 64)).2.1 0 (by decide),
   (claim_C3 (List.range 64)).2.2 16 (by decide) (by decide)⟩

/-- Claim C5 witness: the empty input pads to exactly one 64-byte block,
and 64 is an upper bound given by minimality. -/
theorem claim_C5_witness :
    (apply_padding []).length = 64 ∧ (apply_padding []).length ≤ 64 :=
  ⟨(claim_C5 []).2.2.2.2.2 rfl, (claim_C5 []).2.2.2.1 64 (by decide) (by decide)⟩

/-- Flattening a map whose pieces all have length `c` multiplies the
length by `c`. -/
theorem flattenMap_length {α β : Type} (f : α → List β) (c : Nat)
    (hf : ∀ x, (f x).length = c) (l : List α) :
    ((l.map f).flatten).length = c * l.length := by
  induction l with
  | nil => simp
  | cons a l ih =>
    simp only [List.map_cons, List.flatten_cons, List.length_append, ih, hf,
      List.length_cons, Nat.mul_succ]
    omega

/-- Every character produced by `hexDigit` is a lowercase hex digit. -/
theorem hexDigit_mem (n : Nat) : hexDigit n ∈ hexChars := by
  by_cases h : n < 16
  · interval_cases n <;> decide
  · rw [hexDigit, List.getD_eq_default _ _ (by simp [hexChars]; omega)]
    decide

/-- Claim C8: for every input, the output of `sha256` is the final hash
state written word by word as 4 big-endian bytes and rendered as hex: it
has exactly 64 characters, all lowercase hexadecimal. -/
theorem claim_C8 (input : List Nat) :
    sha256 input =
      String.mk ((((List.range 8).map fun i =>
        u32BeBytes ((hash_state input).getD i 0)).flatten.map byteToHex).flatten) ∧
    (sha256 input).length = 64 ∧
    ∀ c ∈ (sha256 input).data, c ∈ hexChars := by
  refine ⟨rfl, ?_, ?_⟩
  · show (String.mk ((((List.range 8).map fun i =>
      u32BeBytes ((hash_state input).getD i 0)).flatten.map byteToHex).flatten)).length = 64
    rw [String.length]
    show ((((List.range 8).map fun i =>
      u32BeBytes ((hash_state input).getD i 0)).flatten.map byteToHex).flatten).length = 64
    rw [flattenMap_length byteToHex 2 (fun b => rfl),
      flattenMap_length (fun i => u32BeBytes ((hash_state input).getD i 0)) 4
        (fun x => rfl)]
    simp
  · intro c hc
    have hc' : c ∈ (((List.range 8).map fun i =>
        u32BeBytes ((hash_state input).getD i 0)).flatten.map byteToHex).flatten := hc
    rcases List.mem_flatten.mp hc' with ⟨sub, hsub, hcsub⟩
    rcases List.mem_map.mp hsub with ⟨b, _, hb⟩
    rw [← hb] at hcsub
    rcases List.mem_cons.mp hcsub with h1 | h1
    · rw [h1]
      exact hexDigit_mem _
    · rcases List.mem_cons.mp h1 with h2 | h2
      · rw [h2]
        exact hexDigit_mem _
      · simp at h2

/-- Claim C8 witness: the digest of the empty input has 64 characters,
and its first character is a hex digit. -/
theorem claim_C8_witness : (sha256 []).length = 64 ∧ 'e' ∈ hexChars :=
  ⟨(claim_C8 []).2.1, (claim_C8 []).2.2 'e' (by decide)⟩

end Sha256
